import Mathlib

/-!
Verification development for the NLP highlighting plugin (src/src/main.ts).

The core of the program is embedded shallowly:
* `jsIndexOf` models ECMAScript `String.prototype.indexOf` (with the
  from-position clamped into `[0, length]`, and `-1` on failure);
* `locatePoSFrom` models the fragment-location loop of the
  `highlight-parts-of-speech` editor callback (main.ts lines 119-133);
* `locateSentencesFrom` models the loop of the `highlight-sentences`
  editor callback (main.ts lines 148-161);
* `removeBias` models the tag normalizer (main.ts lines 112-117);
* `refreshDocsModel` models `refreshDocs` (main.ts lines 233-248);
* `getNoStopBoW` / `getNoStopSet` model the aggregate queries
  (main.ts lines 250-272);
* `onloadModel` models the registration flow of `onload` (main.ts
  lines 31-221), with file reading and JSON parsing as oracles.

Text is represented as `List Char`; cursor arithmetic is over `Int`
because the JavaScript code mixes `-1` sentinels into its offsets.
-/

/-- Document text, as a list of characters. -/
abbrev Text := List Char

/-- Does `needle` occur in `hay` starting exactly at position `i`? -/
def matchesAt (hay needle : Text) (i : Nat) : Bool :=
  decide ((hay.drop i).take needle.length = needle)

/-- Scan positions `i, i+1, ...` (at most `fuel` of them) for the first
occurrence of `needle` in `hay`. -/
def findFromAux (hay needle : Text) : Nat → Nat → Option Nat
  | _, 0 => none
  | i, Nat.succ fuel =>
    if matchesAt hay needle i then some i else findFromAux hay needle (i + 1) fuel

/-- ECMAScript `hay.indexOf(needle, pos)`: the from-position is clamped to
`[0, hay.length]`, the result is the least matching position at or after it,
and `-1` when there is none.  An empty needle is found immediately at the
clamped position. -/
def jsIndexOf (hay needle : Text) (pos : Int) : Int :=
  let start := min (max pos 0).toNat hay.length
  match findFromAux hay needle start (hay.length + 1 - start) with
  | some i => (i : Int)
  | none => -1

/-- One analyzer fragment: its text and its raw tags
(`term.text` / `term.tags` in main.ts). -/
structure Term where
  text : Text
  tags : List String
deriving DecidableEq, Repr

/-- A resolved decoration range: half-open `[start, stop)` plus the CSS
classes attached by `classedMark` in main.ts. -/
structure Mark where
  start : Int
  stop : Int
  classes : List String
deriving DecidableEq, Repr

/-- The tag normalizer `removeBias` of main.ts lines 112-117:
`tag === "MaleName" ? "MasculineName" : tag === "FemaleName" ? "FeminineName" : tag`. -/
def removeBias (tag : String) : String :=
  if tag = "MaleName" then "MasculineName"
  else if tag = "FemaleName" then "FeminineName"
  else tag

/-- The fragment-location loop of the `highlight-parts-of-speech` callback
(main.ts lines 119-133), started at cursor `off`.  For each term:
`start = content.indexOf(text, currOffset)`, then
`currOffset = start + text.length`, and a mark
`(start, currOffset)` with classes `tags.map(removeBias)` is emitted
whenever `text.length` is non-zero.  Returns the final cursor and the
emitted marks in order. -/
def locatePoSFrom (content : Text) (off : Int) : List Term → Int × List Mark
  | [] => (off, [])
  | t :: ts =>
    let start := jsIndexOf content t.text off
    let newOff := start + (t.text.length : Int)
    let rest := locatePoSFrom content newOff ts
    if t.text.length = 0 then rest
    else (rest.1, ⟨start, newOff, t.tags.map removeBias⟩ :: rest.2)

/-- The `highlight-parts-of-speech` location pass run from the initial
cursor `0`, as in main.ts line 119 (`let currOffset = 0`). -/
def locatePoS (content : Text) (terms : List Term) : Int × List Mark :=
  locatePoSFrom content 0 terms

/-- The sentence-location loop of the `highlight-sentences` callback
(main.ts lines 148-161), started at cursor `off`.  For each sentence text:
`start = content.indexOf(text.slice(0, 5), currOffset)`, then
`currOffset = start + text.length`, and a mark `(start, currOffset)` with
class `"Sentence"` is always emitted. -/
def locateSentencesFrom (content : Text) (off : Int) : List Text → Int × List Mark
  | [] => (off, [])
  | text :: ts =>
    let start := jsIndexOf content (text.take 5) off
    let newOff := start + (text.length : Int)
    let rest := locateSentencesFrom content newOff ts
    (rest.1, ⟨start, newOff, ["Sentence"]⟩ :: rest.2)

/-- The `highlight-sentences` location pass run from the initial cursor `0`
(main.ts line 148). -/
def locateSentences (content : Text) (sentences : List Text) : Int × List Mark :=
  locateSentencesFrom content 0 sentences

/-- Every fragment of the list is found (`indexOf` does not return `-1`)
when the location loop is run from cursor `off`. -/
def allFoundFrom (content : Text) (off : Int) : List Term → Bool
  | [] => true
  | t :: ts =>
    let s := jsIndexOf content t.text off
    decide (0 ≤ s) && allFoundFrom content (s + (t.text.length : Int)) ts

/-- JavaScript object-property assignment `Docs[path] = doc` on an
association list: replace the existing binding for `path`, else append. -/
def upsert (cache : List (String × α)) (k : String) (v : α) : List (String × α) :=
  match cache with
  | [] => [(k, v)]
  | (k', v') :: rest =>
    if k' = k then (k, v) :: rest else (k', v') :: upsert rest k v

/-- The notice text set by `refreshDocs` on success (main.ts line 240). -/
def refreshedMsg : String := "Docs Refreshed"

/-- The notice text set by the `catch` block of `refreshDocs`
(main.ts lines 243-245). -/
def refreshErrMsg : String := "An error occured, check the console for more information."

/-- The loop of `refreshDocs` (main.ts lines 236-246): for each file path,
load-and-analyze and write the result into the cache; the whole loop sits
inside one `try`, so the first failure jumps to the `catch`, leaving the
remaining paths unprocessed.  Returns the final cache and the single notice
message set at the end. -/
def refreshDocsGo (load : String → Except Unit α) (cache : List (String × α)) :
    List String → List (String × α) × String
  | [] => (cache, refreshedMsg)
  | p :: ps =>
    match load p with
    | Except.ok d => refreshDocsGo load (upsert cache p d) ps
    | Except.error _ => (cache, refreshErrMsg)

/-- `refreshDocs` (main.ts lines 233-248) over a given list of paths,
with loading-and-analyzing a path abstracted as the oracle `load`. -/
def refreshDocsModel (load : String → Except Unit α) (cache : List (String × α))
    (paths : List String) : List (String × α) × String :=
  refreshDocsGo load cache paths

/-- One wink item (token or entity) as observed by the aggregate queries:
its string value, its `its.type`, and its `its.stopWordFlag`. -/
structure WinkItem where
  value : String
  itsType : String
  stopWordFlag : Bool
deriving DecidableEq, Repr

/-- A wink `Document` as observed by the aggregate queries: its token
collection and its entity collection. -/
structure WinkDoc where
  tokens : List WinkItem
  entities : List WinkItem
deriving DecidableEq, Repr

/-- The `type` argument of `getNoStopBoW` / `getNoStopSet`:
`"tokens" | "entities"`. -/
inductive TokKind where
  | tokens
  | entities
deriving DecidableEq, Repr

/-- `doc[type]()`: the chosen item collection of a document. -/
def itemsOf (d : WinkDoc) : TokKind → List WinkItem
  | TokKind.tokens => d.tokens
  | TokKind.entities => d.entities

/-- The filter predicate of both aggregate queries (main.ts lines 255-257,
267-269): `item.out(its.type) === "word" && !item.out(its.stopWordFlag)`. -/
def keepItem (it : WinkItem) : Bool :=
  it.itsType = "word" && !it.stopWordFlag

/-- wink's `as.bow` reduction: the bag-of-words of a value sequence, as the
list of distinct values paired with their occurrence counts. -/
def bowOf (vals : List String) : List (String × Nat) :=
  vals.dedup.map (fun v => (v, vals.count v))

/-- `getNoStopBoW` (main.ts lines 250-259): `{}` when the document is
null/undefined (`if (!doc) return {}`), otherwise the bag-of-words of the
values of the items that pass `keepItem`. -/
def getNoStopBoW (doc : Option WinkDoc) (k : TokKind) : List (String × Nat) :=
  match doc with
  | none => []
  | some d => bowOf (((itemsOf d k).filter keepItem).map WinkItem.value)

/-- `getNoStopSet` (main.ts lines 260-272): the empty set when the document
is null/undefined (`if (!doc) return new Set()`), otherwise the set of
values of the items that pass `keepItem` (wink's `as.set`), modelled as a
deduplicated list. -/
def getNoStopSet (doc : Option WinkDoc) (k : TokKind) : List String :=
  match doc with
  | none => []
  | some d => (((itemsOf d k).filter keepItem).map WinkItem.value).dedup

/-- What `onload` (main.ts lines 31-221) has registered by the time it
finishes or is aborted by an exception. -/
structure OnloadState where
  settingTabAdded : Bool
  commands : List String
  editorExtensionRegistered : Bool
  failed : Bool
deriving DecidableEq, Repr

/-- The command ids registered by `onload` after the custom-entity block:
the three modal commands, `refresh-docs`, the two highlight commands, and
the dynamically built text-manipulation and entity commands (whose id lists
come from `./const`, passed in as parameters). -/
def allCommandIds (manipCmds entityCmds : List String) : List String :=
  ["open-Markup", "open-Match", "open-PoS", "refresh-docs",
    "highlight-parts-of-speech", "highlight-sentences"] ++ manipCmds ++ entityCmds

/-- The registration flow of `onload` (main.ts lines 31-221).  The settings
tab is added first (line 34).  Then, when `customEntityFilePath` is
non-empty, the custom-entity file is read and JSON-parsed (lines 38-46)
with no `try`/`catch`: a failure of either propagates out of `onload`,
so none of the command registrations (lines 48-200) and not the
`registerEditorExtension(markField)` call (line 92) are reached.
Reading and parsing are abstracted as oracles. -/
def onloadModel (customEntityFilePath : String)
    (readFile : String → Except Unit String)
    (parseEntities : String → Except Unit (List String))
    (manipCmds entityCmds : List String) : OnloadState :=
  let st : OnloadState :=
    { settingTabAdded := true, commands := [],
      editorExtensionRegistered := false, failed := false }
  let registerAll : OnloadState → OnloadState := fun s =>
    { s with commands := allCommandIds manipCmds entityCmds,
             editorExtensionRegistered := true }
  if customEntityFilePath = "" then registerAll st
  else
    match readFile customEntityFilePath with
    | Except.error _ => { st with failed := true }
    | Except.ok str =>
      match parseEntities str with
      | Except.error _ => { st with failed := true }
      | Except.ok _ => registerAll st

/-- Modelled from the spec: a RangeSet range.  The live RangeSet is
CodeMirror's (`@codemirror/state`), not part of this repository; §4.3 of
the spec gives its contract, which is embedded here. -/
structure RS_Range where
  start : Int
  stop : Int
  classes : List String
deriving DecidableEq, Repr

/-- Modelled from the spec: a single document edit, replacing
`[fromIdx, toIdx)` with `insertedLength` characters. -/
structure DocumentChange where
  fromIdx : Int
  toIdx : Int
  insertedLength : Int
deriving DecidableEq, Repr

/-- The net length delta of a change: `insertedLength - (to - from)`. -/
def chDelta (c : DocumentChange) : Int :=
  c.insertedLength - (c.toIdx - c.fromIdx)

/-- Modelled from the spec: sorted insertion of one range by `start`,
the unit step of `addAll`'s merge-insert (`value.update({add, sort: true})`
in main.ts line 83). -/
def insertSorted (r : RS_Range) : List RS_Range → List RS_Range
  | [] => [r]
  | x :: xs => if r.start ≤ x.start then r :: x :: xs else x :: insertSorted r xs

/-- Modelled from the spec: `addAll` — merge-insert a batch preserving
global sort order by `start`. -/
def addAll (rs : List RS_Range) (batch : List RS_Range) : List RS_Range :=
  batch.foldl (fun acc r => insertSorted r acc) rs

/-- Modelled from the spec: re-map one range through an edit — unaffected
when entirely before `fromIdx`, translated by the net delta when entirely
at or after `toIdx`, dropped when it overlaps the edited span. -/
def mapRange (c : DocumentChange) (r : RS_Range) : Option RS_Range :=
  if r.stop ≤ c.fromIdx then some r
  else if c.toIdx ≤ r.start then
    some { r with start := r.start + chDelta c, stop := r.stop + chDelta c }
  else none

/-- Modelled from the spec: `mapThroughChange` — re-map every range of the
set through the edit (`value.map(tr.changes)` in main.ts line 80). -/
def mapThroughChange (c : DocumentChange) (rs : List RS_Range) : List RS_Range :=
  rs.filterMap (mapRange c)

/-- One operation on the live RangeSet of `markField`
(main.ts lines 73-91): a bulk add (`addMarks` effect), a predicate filter
(`filterMarks` effect), or a re-map through a document change. -/
inductive RSOp where
  | add (batch : List RS_Range)
  | filt (p : RS_Range → Bool)
  | mapCh (c : DocumentChange)

/-- Apply one RangeSet operation. -/
def applyOp (rs : List RS_Range) : RSOp → List RS_Range
  | RSOp.add batch => addAll rs batch
  | RSOp.filt p => rs.filter p
  | RSOp.mapCh c => mapThroughChange c rs

/-- Apply a sequence of RangeSet operations, oldest first, to the set;
`markField.create` starts from `Decoration.none`, i.e. the empty set. -/
def applyOps (rs : List RS_Range) (ops : List RSOp) : List RS_Range :=
  ops.foldl applyOp rs

/-- A well-formed range: `0 ≤ start < stop`. -/
def ValidRange (r : RS_Range) : Prop :=
  0 ≤ r.start ∧ r.start < r.stop

/-- A well-formed document change: `0 ≤ from ≤ to` and a non-negative
inserted length. -/
def ValidChange (c : DocumentChange) : Prop :=
  0 ≤ c.fromIdx ∧ c.fromIdx ≤ c.toIdx ∧ 0 ≤ c.insertedLength

/-- The RangeSet invariant: sorted ascending by `start`, every range
well-formed. -/
def InvRS (rs : List RS_Range) : Prop :=
  List.Pairwise (fun a b => a.start ≤ b.start) rs ∧ ∀ r ∈ rs, ValidRange r

/-- The precondition on one operation: added ranges are well-formed and
changes are well-formed; filtering needs nothing. -/
def OpOK : RSOp → Prop
  | RSOp.add batch => ∀ r ∈ batch, ValidRange r
  | RSOp.filt _ => True
  | RSOp.mapCh c => ValidChange c

theorem findFromAux_ge (hay needle : Text) :
    ∀ (fuel i j : Nat), findFromAux hay needle i fuel = some j → i ≤ j := by
  intro fuel
  induction fuel with
  | zero => intro i j h; exact absurd h (by simp [findFromAux])
  | succ n ih =>
    intro i j h
    simp only [findFromAux] at h
    by_cases hm : matchesAt hay needle i
    · rw [if_pos hm] at h
      exact le_of_eq (Option.some.inj h)
    · rw [if_neg hm] at h
      exact Nat.le_of_succ_le (ih (i + 1) j h)

theorem jsIndexOf_ge (hay needle : Text) (off : Int)
    (hne : needle ≠ []) (h0 : 0 ≤ off) (hfound : 0 ≤ jsIndexOf hay needle off) :
    off ≤ jsIndexOf hay needle off := by
  by_cases hlen : (max off 0).toNat ≤ hay.length
  · have hstart : min (max off 0).toNat hay.length = (max off 0).toNat :=
      min_eq_left hlen
    cases hfind : findFromAux hay needle (min (max off 0).toNat hay.length)
        (hay.length + 1 - min (max off 0).toNat hay.length) with
    | none =>
      have hbad : jsIndexOf hay needle off = -1 := by simp [jsIndexOf, hfind]
      omega
    | some j =>
      have hj : jsIndexOf hay needle off = (j : Int) := by simp [jsIndexOf, hfind]
      have hge := findFromAux_ge hay needle _ _ _ hfind
      rw [hstart] at hge
      rw [hj]
      omega
  · have hstart : min (max off 0).toNat hay.length = hay.length :=
      min_eq_right (le_of_not_le hlen)
    have hm : matchesAt hay needle hay.length = false := by
      simp only [matchesAt, List.drop_length, List.take_nil, decide_eq_false_iff_not]
      exact fun h => hne h.symm
    have hfuel : hay.length + 1 - min (max off 0).toNat hay.length = 1 := by omega
    have hnone : findFromAux hay needle (min (max off 0).toNat hay.length)
        (hay.length + 1 - min (max off 0).toNat hay.length) = none := by
      rw [hfuel, hstart]
      simp [findFromAux, hm]
    have hbad : jsIndexOf hay needle off = -1 := by simp [jsIndexOf, hnone]
    omega

theorem jsIndexOf_nil (hay : Text) (off : Int) :
    jsIndexOf hay [] off = ((min (max off 0).toNat hay.length : Nat) : Int) := by
  have hm : matchesAt hay [] (min (max off 0).toNat hay.length) = true := by
    simp [matchesAt]
  have hfuel : hay.length + 1 - min (max off 0).toNat hay.length
      = (hay.length - min (max off 0).toNat hay.length) + 1 := by
    have := min_le_right (max off 0).toNat hay.length
    omega
  simp [jsIndexOf, hfuel, findFromAux, hm]

theorem locatePoS_chain (content : Text) :
    ∀ (ts : List Term) (off : Int), 0 ≤ off → (∀ t ∈ ts, t.text ≠ []) →
      allFoundFrom content off ts = true →
      (∀ m ∈ (locatePoSFrom content off ts).2, off ≤ m.start ∧ m.start < m.stop) ∧
      List.Pairwise (fun a b => a.stop ≤ b.start) (locatePoSFrom content off ts).2 := by
  intro ts
  induction ts with
  | nil => intro off _ _ _; simp [locatePoSFrom]
  | cons t ts ih =>
    intro off hoff hne hfound
    have hnet : t.text ≠ [] := hne t (List.mem_cons_self t ts)
    have hlen : ¬ t.text.length = 0 := by
      simpa [List.length_eq_zero] using hnet
    simp only [allFoundFrom, Bool.and_eq_true, decide_eq_true_eq] at hfound
    obtain ⟨hpos, hrest⟩ := hfound
    have hge : off ≤ jsIndexOf content t.text off :=
      jsIndexOf_ge content t.text off hnet hoff hpos
    have hlt : jsIndexOf content t.text off
        < jsIndexOf content t.text off + (t.text.length : Int) := by
      have : 0 < t.text.length := Nat.pos_of_ne_zero hlen
      omega
    have hoff' : 0 ≤ jsIndexOf content t.text off + (t.text.length : Int) := by omega
    obtain ⟨ihmem, ihpw⟩ :=
      ih (jsIndexOf content t.text off + (t.text.length : Int)) hoff'
        (fun t' ht' => hne t' (List.mem_cons_of_mem t ht')) hrest
    constructor
    · intro m hm
      simp only [locatePoSFrom] at hm
      rw [if_neg hlen] at hm
      rcases List.mem_cons.mp hm with hm | hm
      · subst hm
        exact ⟨hge, hlt⟩
      · obtain ⟨h1, h2⟩ := ihmem m hm
        exact ⟨le_trans hge (le_trans (le_of_lt hlt) h1), h2⟩
    · simp only [locatePoSFrom]
      rw [if_neg hlen]
      refine List.Pairwise.cons ?_ ihpw
      intro m hm
      exact (ihmem m hm).1

/-- C3: for every sequence of non-empty fragments in document order (each
fragment found at or after the cursor), the ranges returned by the
fragment locator of the `highlight-parts-of-speech` pass have
non-decreasing (indeed strictly increasing) start offsets and no two
returned ranges overlap. -/
theorem posRanges_sorted_disjoint (content : Text) (terms : List Term)
    (hne : ∀ t ∈ terms, t.text ≠ [])
    (hfound : allFoundFrom content 0 terms = true) :
    List.Pairwise (fun a b => a.start ≤ b.start) (locatePoS content terms).2 ∧
    List.Pairwise (fun a b => ¬ (a.start < b.stop ∧ b.start < a.stop))
      (locatePoS content terms).2 := by
  obtain ⟨hmem, hpw⟩ := locatePoS_chain content terms 0 (le_refl 0) hne hfound
  constructor
  · refine List.Pairwise.imp_of_mem ?_ hpw
    intro a b ha _hb hab
    have := (hmem a ha).2
    omega
  · refine List.Pairwise.imp_of_mem ?_ hpw
    intro a b _ha _hb hab
    omega

theorem posRanges_sorted_disjoint_witness :
    List.Pairwise (fun a b => a.start ≤ b.start)
      (locatePoS "ab cd".data [⟨"ab".data, []⟩, ⟨"cd".data, []⟩]).2 ∧
    List.Pairwise (fun a b => ¬ (a.start < b.stop ∧ b.start < a.stop))
      (locatePoS "ab cd".data [⟨"ab".data, []⟩, ⟨"cd".data, []⟩]).2 :=
  posRanges_sorted_disjoint "ab cd".data [⟨"ab".data, []⟩, ⟨"cd".data, []⟩]
    (by decide) (by decide)

/-- C1: what the `highlight-parts-of-speech` loop actually does on an
unmatched fragment.  On content `"abc"` with the single fragment `"zzz"`,
`indexOf` returns `-1`; the loop then sets the cursor to
`-1 + 3 = 2` and, because the fragment is non-empty, pushes the mark
`(-1, 2)` — so a Range IS emitted for the unmatched fragment and the
cursor IS moved, contradicting the skip-and-continue policy. -/
theorem posLocate_notFound_eval :
    jsIndexOf "abc".data "zzz".data 0 = -1 ∧
    locatePoS "abc".data [⟨"zzz".data, []⟩] = (2, [⟨-1, 2, []⟩]) := by
  exact ⟨by decide, by decide⟩

/-- C5 counterexample: processing an empty fragment is not always a no-op
on the cursor.  On content `"ab"`, the unmatched fragment `"wxyz"` first
drives the cursor to `-1 + 4 = 3`, beyond the text length `2`; the
subsequent empty fragment then moves the cursor to
`"ab".indexOf("", 3) + 0 = 2 ≠ 3`. -/
theorem emptyFragment_moves_cursor_cex :
    (locatePoSFrom "ab".data 0 [⟨"wxyz".data, []⟩]).1 = 3 ∧
    (locatePoSFrom "ab".data 0 [⟨"wxyz".data, []⟩, ⟨[], []⟩]).1 = 2 ∧
    ((3 : Int) = 2 → False) := by
  exact ⟨by decide, by decide, by decide⟩

/-- C5 amended: a fragment with empty text never produces a Range, and
processing it sets the cursor to `min (max cursor 0) (length content)`;
in particular the cursor is unchanged whenever `0 ≤ cursor ≤ length`
(which holds whenever every earlier fragment was found). -/
theorem emptyFragment_skip (content : Text) (off : Int) (tags : List String)
    (ts : List Term) :
    locatePoSFrom content off (⟨[], tags⟩ :: ts)
      = locatePoSFrom content ((min (max off 0).toNat content.length : Nat) : Int) ts ∧
    (0 ≤ off → off ≤ (content.length : Int) →
      locatePoSFrom content off (⟨[], tags⟩ :: ts) = locatePoSFrom content off ts) := by
  have hnil : locatePoSFrom content off (⟨[], tags⟩ :: ts)
      = locatePoSFrom content ((min (max off 0).toNat content.length : Nat) : Int) ts := by
    simp [locatePoSFrom, jsIndexOf_nil]
  refine ⟨hnil, fun h0 hle => ?_⟩
  rw [hnil]
  congr 1
  omega

theorem emptyFragment_skip_witness :
    locatePoSFrom "ab".data 1 [⟨[], ["X"]⟩] = locatePoSFrom "ab".data 1 [] :=
  (emptyFragment_skip "ab".data 1 ["X"] []).2 (by decide) (by decide)

/-- C6: in the sentence-highlighting pass each sentence fragment is located
by searching for the first 5 characters of its text from the cursor; the
emitted range runs from the found index to that index plus the full text
length, and the cursor is advanced to the range's end unconditionally.
On `"John ran. Mary ran."` with sentence fragments `"John ran."` and
`"Mary ran."` this yields the ranges `[0,9)` and `[10,19)`. -/
theorem sentencePass_spec :
    (∀ (content : Text) (off : Int) (text : Text) (ts : List Text),
      locateSentencesFrom content off (text :: ts)
        = ((locateSentencesFrom content
              (jsIndexOf content (text.take 5) off + (text.length : Int)) ts).1,
            ⟨jsIndexOf content (text.take 5) off,
              jsIndexOf content (text.take 5) off + (text.length : Int),
              ["Sentence"]⟩
              :: (locateSentencesFrom content
                    (jsIndexOf content (text.take 5) off + (text.length : Int)) ts).2)) ∧
    locateSentences "John ran. Mary ran.".data ["John ran.".data, "Mary ran.".data]
      = (19, [⟨0, 9, ["Sentence"]⟩, ⟨10, 19, ["Sentence"]⟩]) := by
  constructor
  · intro content off text ts
    rfl
  · decide

/-- C7: on `"cat cat cat"` with three fragments of text `"cat"`, the
`highlight-parts-of-speech` locator returns exactly the ranges `[0,3)`,
`[4,7)`, `[8,11)` — the forward-only cursor picks the leftmost occurrence
at or after the previous range's end. -/
theorem catCatCat_ranges :
    locatePoS "cat cat cat".data [⟨"cat".data, []⟩, ⟨"cat".data, []⟩, ⟨"cat".data, []⟩]
      = (11, [⟨0, 3, []⟩, ⟨4, 7, []⟩, ⟨8, 11, []⟩]) := by
  decide

theorem locatePoS_classes (content : Text) :
    ∀ (ts : List Term) (off : Int) (m : Mark),
      m ∈ (locatePoSFrom content off ts).2 →
      ∃ t ∈ ts, m.classes = t.tags.map removeBias := by
  intro ts
  induction ts with
  | nil => intro off m hm; simp [locatePoSFrom] at hm
  | cons t ts ih =>
    intro off m hm
    simp only [locatePoSFrom] at hm
    by_cases h0 : t.text.length = 0
    · rw [if_pos h0] at hm
      obtain ⟨t', ht', he⟩ := ih _ m hm
      exact ⟨t', List.mem_cons_of_mem t ht', he⟩
    · rw [if_neg h0] at hm
      rcases List.mem_cons.mp hm with hm | hm
      · exact ⟨t, List.mem_cons_self t ts, by rw [hm]⟩
      · obtain ⟨t', ht', he⟩ := ih _ m hm
        exact ⟨t', List.mem_cons_of_mem t ht', he⟩

/-- C8: `removeBias` is a pure total function mapping `"MaleName"` to
`"MasculineName"` and `"FemaleName"` to `"FeminineName"`, returning every
other string unchanged, and every mark emitted by the
`highlight-parts-of-speech` locator carries the image of some fragment's
raw tags under `removeBias` as its classes. -/
theorem removeBias_spec :
    removeBias "MaleName" = "MasculineName" ∧
    removeBias "FemaleName" = "FeminineName" ∧
    (∀ tag : String, tag ≠ "MaleName" → tag ≠ "FemaleName" → removeBias tag = tag) ∧
    (∀ (content : Text) (terms : List Term) (m : Mark),
      m ∈ (locatePoS content terms).2 → ∃ t ∈ terms, m.classes = t.tags.map removeBias) := by
  refine ⟨rfl, rfl, ?_, ?_⟩
  · intro tag h1 h2
    simp [removeBias, h1, h2]
  · intro content terms m hm
    exact locatePoS_classes content terms 0 m hm

theorem removeBias_spec_witness : removeBias "Noun" = "Noun" :=
  removeBias_spec.2.2.1 "Noun" (by decide) (by decide)

theorem lookup_cons_ne (es : List (String × α)) (k k' : String) (v : α)
    (h : k' ≠ k) :
    ((k, v) :: es).lookup k' = es.lookup k' := by
  rw [List.lookup_cons]
  rw [beq_eq_false_iff_ne.mpr h]

theorem lookup_upsert_self (cache : List (String × α)) (k : String) (v : α) :
    (upsert cache k v).lookup k = some v := by
  induction cache with
  | nil => simp [upsert]
  | cons e rest ih =>
    obtain ⟨k', v'⟩ := e
    by_cases hk : k' = k
    · subst hk
      simp [upsert]
    · simp only [upsert, if_neg hk]
      rw [lookup_cons_ne (upsert rest k v) k' k v' (Ne.symm hk)]
      exact ih

theorem lookup_upsert_ne (cache : List (String × α)) (k k' : String) (v : α)
    (h : k' ≠ k) :
    (upsert cache k v).lookup k' = cache.lookup k' := by
  induction cache with
  | nil =>
    simp only [upsert]
    exact lookup_cons_ne [] k k' v h
  | cons e rest ih =>
    obtain ⟨k₀, v₀⟩ := e
    by_cases hk : k₀ = k
    · subst hk
      have hu : upsert ((k₀, v₀) :: rest) k₀ v = (k₀, v) :: rest := by
        simp [upsert]
      rw [hu, lookup_cons_ne rest k₀ k' v h, lookup_cons_ne rest k₀ k' v₀ h]
    · simp only [upsert, if_neg hk]
      by_cases hk' : k' = k₀
      · subst hk'
        rw [List.lookup_cons_self, List.lookup_cons_self]
      · rw [lookup_cons_ne (upsert rest k v) k₀ k' v₀ hk', lookup_cons_ne rest k₀ k' v₀ hk']
        exact ih

/-- C2 counterexample: `c2load` succeeds on `"p1"` and `"p3"` and fails on
`"p2"`. -/
def c2load : String → Except Unit Nat :=
  fun p => if p = "p2" then Except.error () else Except.ok 7

/-- C2 counterexample: refreshing the 3 paths `p1, p2, p3`, where loading
`p2` fails and loading `p3` would succeed, does NOT leave a cache entry for
`p3`: the single `try` around the whole loop makes the first failure abort
the remaining iterations.  Only `p1` is cached (and the failure notice is
set). -/
theorem refresh_drops_later_paths_cex :
    c2load "p1" = Except.ok 7 ∧ c2load "p3" = Except.ok 7 ∧
    (refreshDocsModel c2load [] ["p1", "p2", "p3"]).1.lookup "p1" = some 7 ∧
    (refreshDocsModel c2load [] ["p1", "p2", "p3"]).1.lookup "p3" = none ∧
    (refreshDocsModel c2load [] ["p1", "p2", "p3"]).2 = refreshErrMsg :=
  ⟨rfl, rfl, by decide, by decide, rfl⟩

/-- C2 amended: when one path's load or analyze fails during a refresh,
every path processed BEFORE the failing one keeps its cache entry and the
operation reports failure once via the single notice; paths ordered AFTER
the failing one are not processed at all, so their cache state is whatever
it was before the refresh. -/
theorem refresh_partial_cache (load : String → Except Unit α)
    (cache : List (String × α)) (pre : List String) (x : String) (post : List String)
    (hpre : ∀ p ∈ pre, ∃ d, load p = Except.ok d)
    (hx : load x = Except.error ()) :
    (refreshDocsModel load cache (pre ++ x :: post)).2 = refreshErrMsg ∧
    (∀ p ∈ pre, ∃ d, load p = Except.ok d ∧
      (refreshDocsModel load cache (pre ++ x :: post)).1.lookup p = some d) ∧
    (∀ q, q ∉ pre →
      (refreshDocsModel load cache (pre ++ x :: post)).1.lookup q = cache.lookup q) := by
  induction pre generalizing cache with
  | nil =>
    have h : refreshDocsModel load cache ([] ++ x :: post) = (cache, refreshErrMsg) := by
      simp [refreshDocsModel, refreshDocsGo, hx]
    rw [h]
    exact ⟨rfl, by simp, fun q _ => rfl⟩
  | cons p pre ih =>
    obtain ⟨d, hd⟩ := hpre p (List.mem_cons_self p pre)
    have hpre' : ∀ p' ∈ pre, ∃ d, load p' = Except.ok d :=
      fun p' hp' => hpre p' (List.mem_cons_of_mem p hp')
    have hstep : refreshDocsModel load cache ((p :: pre) ++ x :: post)
        = refreshDocsModel load (upsert cache p d) (pre ++ x :: post) := by
      simp only [List.cons_append, refreshDocsModel, refreshDocsGo, hd]
      rfl
    obtain ⟨ihmsg, ihpre, ihrest⟩ := ih (upsert cache p d) hpre'
    rw [hstep]
    refine ⟨ihmsg, ?_, ?_⟩
    · intro p' hp'
      rcases List.mem_cons.mp hp' with hp' | hp'
      · subst hp'
        by_cases hmem : p' ∈ pre
        · exact ihpre p' hmem
        · refine ⟨d, hd, ?_⟩
          rw [ihrest p' hmem]
          exact lookup_upsert_self cache p' d
      · exact ihpre p' hp'
    · intro q hq
      have hq1 : q ∉ pre := fun h => hq (List.mem_cons_of_mem p h)
      have hq2 : q ≠ p := fun h => hq (h ▸ List.mem_cons_self p pre)
      rw [ihrest q hq1]
      exact lookup_upsert_ne cache p q d hq2

theorem refresh_partial_cache_witness :
    (refreshDocsModel c2load [] (["p1"] ++ "p2" :: ["p3"])).2 = refreshErrMsg ∧
    (∀ p ∈ ["p1"], ∃ d, c2load p = Except.ok d ∧
      (refreshDocsModel c2load [] (["p1"] ++ "p2" :: ["p3"])).1.lookup p = some d) ∧
    (∀ q, q ∉ ["p1"] →
      (refreshDocsModel c2load [] (["p1"] ++ "p2" :: ["p3"])).1.lookup q
        = ([] : List (String × Nat)).lookup q) :=
  refresh_partial_cache c2load [] ["p1"] "p2" ["p3"]
    (by intro p hp; simp only [List.mem_singleton] at hp; subst hp; exact ⟨7, rfl⟩)
    rfl

/-- C10: for a null/undefined document `getNoStopBoW` returns the empty
bag-of-words and `getNoStopSet` the empty set instead of failing; for a
non-null document both aggregate only over items that are of type
`"word"` and not flagged as stop-words (every other token is excluded). -/
theorem noStop_queries_spec :
    (∀ k, getNoStopBoW none k = [] ∧ getNoStopSet none k = []) ∧
    (∀ (d : WinkDoc) (k : TokKind) (v : String),
      v ∈ getNoStopSet (some d) k ↔
        ∃ it ∈ itemsOf d k, it.value = v ∧ it.itsType = "word" ∧ it.stopWordFlag = false) ∧
    (∀ (d : WinkDoc) (k : TokKind) (v : String) (n : Nat),
      (v, n) ∈ getNoStopBoW (some d) k →
        ∃ it ∈ itemsOf d k, it.value = v ∧ it.itsType = "word" ∧ it.stopWordFlag = false) := by
  refine ⟨fun k => ⟨rfl, rfl⟩, ?_, ?_⟩
  · intro d k v
    simp only [getNoStopSet, List.mem_dedup, List.mem_map, List.mem_filter, keepItem,
      Bool.and_eq_true, decide_eq_true_eq, Bool.not_eq_true']
    constructor
    · rintro ⟨it, ⟨hit, htype, hstop⟩, hval⟩
      exact ⟨it, hit, hval, htype, hstop⟩
    · rintro ⟨it, hit, hval, htype, hstop⟩
      exact ⟨it, ⟨hit, htype, hstop⟩, hval⟩
  · intro d k v n hvn
    simp only [getNoStopBoW, bowOf, List.mem_map] at hvn
    obtain ⟨v', hv', heq⟩ := hvn
    injection heq with h1 h2
    subst h1
    rw [List.mem_dedup] at hv'
    simp only [List.mem_map, List.mem_filter, keepItem, Bool.and_eq_true,
      decide_eq_true_eq, Bool.not_eq_true'] at hv'
    obtain ⟨it, ⟨hit, htype, hstop⟩, hval⟩ := hv'
    exact ⟨it, hit, hval, htype, hstop⟩

theorem noStop_queries_spec_witness :
    ∃ it ∈ itemsOf ⟨[⟨"dog", "word", false⟩], []⟩ TokKind.tokens,
      it.value = "dog" ∧ it.itsType = "word" ∧ it.stopWordFlag = false :=
  noStop_queries_spec.2.2 ⟨[⟨"dog", "word", false⟩], []⟩ TokKind.tokens "dog" 1 (by decide)

/-- C4 failing input: the custom-entity file read fails (file missing). -/
def c4read : String → Except Unit String := fun _ => Except.error ()

/-- C4 oracle: JSON parsing succeeds (irrelevant when the read fails). -/
def c4parse : String → Except Unit (List String) := fun _ => Except.ok []

/-- C4: what `onload` actually does when `customEntityFilePath` is set and
reading the custom-entity file fails: the exception propagates out of
`onload` before any command or editor-extension registration, so NO
commands and NO decoration extension are registered — contradicting the
claim that the plugin still finishes loading with default capability.
(With an empty `customEntityFilePath` — the block skipped — everything is
registered.) -/
theorem onload_configFailure_blocks_registration :
    onloadModel "entities.json" c4read c4parse ["m1"] ["e1"]
      = { settingTabAdded := true, commands := [],
          editorExtensionRegistered := false, failed := true } ∧
    onloadModel "" c4read c4parse ["m1"] ["e1"]
      = { settingTabAdded := true, commands := allCommandIds ["m1"] ["e1"],
          editorExtensionRegistered := true, failed := false } := by
  exact ⟨rfl, rfl⟩

theorem mem_insertSorted (r a : RS_Range) :
    ∀ l : List RS_Range, a ∈ insertSorted r l ↔ a = r ∨ a ∈ l := by
  intro l
  induction l with
  | nil => simp [insertSorted]
  | cons x xs ih =>
    simp only [insertSorted]
    by_cases h : r.start ≤ x.start
    · rw [if_pos h]
      simp [List.mem_cons]
    · rw [if_neg h]
      simp only [List.mem_cons, ih]
      tauto

theorem pairwise_insertSorted (r : RS_Range) :
    ∀ l : List RS_Range, List.Pairwise (fun a b => a.start ≤ b.start) l →
      List.Pairwise (fun a b => a.start ≤ b.start) (insertSorted r l) := by
  intro l
  induction l with
  | nil => intro _; simp [insertSorted]
  | cons x xs ih =>
    intro hpw
    obtain ⟨hx, hxs⟩ := List.pairwise_cons.mp hpw
    simp only [insertSorted]
    by_cases h : r.start ≤ x.start
    · rw [if_pos h]
      refine List.Pairwise.cons ?_ hpw
      intro b hb
      rcases List.mem_cons.mp hb with hb | hb
      · subst hb; exact h
      · exact le_trans h (hx b hb)
    · rw [if_neg h]
      refine List.Pairwise.cons ?_ (ih hxs)
      intro b hb
      rcases (mem_insertSorted r b xs).mp hb with hb | hb
      · subst hb; exact le_of_not_le h
      · exact hx b hb

theorem invRS_insertSorted (r : RS_Range) (l : List RS_Range)
    (hl : InvRS l) (hr : ValidRange r) : InvRS (insertSorted r l) := by
  refine ⟨pairwise_insertSorted r l hl.1, ?_⟩
  intro a ha
  rcases (mem_insertSorted r a l).mp ha with ha | ha
  · subst ha; exact hr
  · exact hl.2 a ha

theorem invRS_addAll (l : List RS_Range) (batch : List RS_Range)
    (hl : InvRS l) (hb : ∀ r ∈ batch, ValidRange r) : InvRS (addAll l batch) := by
  induction batch generalizing l with
  | nil => exact hl
  | cons b bs ih =>
    have hfold : addAll l (b :: bs) = addAll (insertSorted b l) bs := rfl
    rw [hfold]
    exact ih (insertSorted b l)
      (invRS_insertSorted b l hl (hb b (List.mem_cons_self b bs)))
      (fun r hr => hb r (List.mem_cons_of_mem b hr))

theorem invRS_filter (l : List RS_Range) (p : RS_Range → Bool) (hl : InvRS l) :
    InvRS (l.filter p) :=
  ⟨hl.1.filter p, fun r hr => hl.2 r (List.mem_of_mem_filter hr)⟩

theorem mapRange_cases (c : DocumentChange) (r r' : RS_Range)
    (h : mapRange c r = some r') :
    (r.stop ≤ c.fromIdx ∧ r' = r) ∨
    (¬ r.stop ≤ c.fromIdx ∧ c.toIdx ≤ r.start ∧
      r'.start = r.start + chDelta c ∧ r'.stop = r.stop + chDelta c) := by
  simp only [mapRange] at h
  by_cases h1 : r.stop ≤ c.fromIdx
  · rw [if_pos h1] at h
    injection h with h
    exact Or.inl ⟨h1, h.symm⟩
  · rw [if_neg h1] at h
    by_cases h2 : c.toIdx ≤ r.start
    · rw [if_pos h2] at h
      injection h with h
      exact Or.inr ⟨h1, h2, by rw [← h], by rw [← h]⟩
    · rw [if_neg h2] at h
      exact absurd h (by simp)

theorem mapRange_valid (c : DocumentChange) (r r' : RS_Range)
    (hc : ValidChange c) (hr : ValidRange r) (h : mapRange c r = some r') :
    ValidRange r' := by
  obtain ⟨hf, hft, hins⟩ := hc
  obtain ⟨hr0, hrlt⟩ := hr
  rcases mapRange_cases c r r' h with ⟨h1, he⟩ | ⟨h1, h2, hstart, hstop⟩
  · subst he; exact ⟨hr0, hrlt⟩
  · simp only [chDelta] at hstart hstop
    exact ⟨by omega, by omega⟩

theorem mapRange_mono (c : DocumentChange) (a b a' b' : RS_Range)
    (hc : ValidChange c) (ha : ValidRange a) (hb : ValidRange b)
    (hab : a.start ≤ b.start)
    (h1 : mapRange c a = some a') (h2 : mapRange c b = some b') :
    a'.start ≤ b'.start := by
  obtain ⟨hf, hft, hins⟩ := hc
  obtain ⟨ha0, halt⟩ := ha
  obtain ⟨hb0, hblt⟩ := hb
  rcases mapRange_cases c a a' h1 with ⟨hA1, heA⟩ | ⟨hA1, hA2, hAstart, hAstop⟩ <;>
    rcases mapRange_cases c b b' h2 with ⟨hB1, heB⟩ | ⟨hB1, hB2, hBstart, hBstop⟩
  · subst heA; subst heB; exact hab
  · subst heA
    simp only [chDelta] at hBstart hBstop
    omega
  · subst heB
    simp only [chDelta] at hAstart hAstop
    omega
  · simp only [chDelta] at hAstart hAstop hBstart hBstop
    omega

theorem invRS_mapThroughChange (c : DocumentChange) (l : List RS_Range)
    (hc : ValidChange c) (hl : InvRS l) : InvRS (mapThroughChange c l) := by
  constructor
  · rw [mapThroughChange, List.pairwise_filterMap]
    refine List.Pairwise.imp_of_mem ?_ hl.1
    intro a b ha hb hab a' ha' b' hb'
    exact mapRange_mono c a b a' b' hc (hl.2 a ha) (hl.2 b hb) hab
      (Option.mem_def.mp ha') (Option.mem_def.mp hb')
  · intro r' hr'
    rw [mapThroughChange] at hr'
    obtain ⟨r, hr, hmap⟩ := List.mem_filterMap.mp hr'
    exact mapRange_valid c r r' hc (hl.2 r hr) hmap

theorem invRS_applyOp (rs : List RS_Range) (op : RSOp)
    (h : InvRS rs) (hop : OpOK op) : InvRS (applyOp rs op) := by
  cases op with
  | add batch => exact invRS_addAll rs batch h hop
  | filt p => exact invRS_filter rs p h
  | mapCh c => exact invRS_mapThroughChange c rs hop h

theorem invRS_applyOps (ops : List RSOp) :
    ∀ rs, InvRS rs → (∀ op ∈ ops, OpOK op) → InvRS (applyOps rs ops) := by
  induction ops with
  | nil => intro rs h _; exact h
  | cons op ops ih =>
    intro rs h hops
    exact ih (applyOp rs op)
      (invRS_applyOp rs op h (hops op (List.mem_cons_self op ops)))
      (fun o ho => hops o (List.mem_cons_of_mem op ho))

/-- C9: starting from the empty decoration set, after any sequence of
bulk-add, predicate-filter and map-through-edit operations (with
well-formed added ranges and well-formed edits), the live RangeSet remains
sorted ascending by `start` and every range satisfies `0 ≤ start < stop`. -/
theorem rangeSet_invariant (ops : List RSOp)
    (hops : ∀ op ∈ ops, OpOK op) : InvRS (applyOps [] ops) :=
  invRS_applyOps ops [] ⟨List.Pairwise.nil, by simp⟩ hops

/-- A concrete operation sequence: one bulk add, one edit re-map, one
predicate filter. -/
def c9ops : List RSOp :=
  [RSOp.add [⟨0, 3, ["Noun"]⟩, ⟨5, 9, ["Verb"]⟩],
    RSOp.mapCh ⟨1, 2, 0⟩,
    RSOp.filt (fun r => decide (r.stop ≤ 10))]

theorem rangeSet_invariant_witness : InvRS (applyOps [] c9ops) := by
  refine rangeSet_invariant c9ops ?_
  intro op hop
  simp only [c9ops, List.mem_cons, List.not_mem_nil, or_false] at hop
  rcases hop with h | h | h <;> subst h
  · intro r hr
    simp only [List.mem_cons, List.not_mem_nil, or_false] at hr
    rcases hr with h | h <;> subst h <;> exact ⟨by decide, by decide⟩
  · exact ⟨by decide, by decide, by decide⟩
  · trivial
